import Mathlib

/-
Verification of the dependency-resolution core of cower (an AUR helper).

The development shallowly embeds the two source files:
  - depends.c : recipe (PKGBUILD) array extraction and the dependency
    resolution driver (parse_bash_array, pkgbuild_get_deps,
    populate_pkg_deps, get_pkg_dependencies);
  - pacman.c  : the merge-with-deduplication list combiner
    (alpm_list_mmerge_dedupe) and the sync-database lookups
    (alpm_sync_search, is_in_pacman).

C buffers are embedded as List Char.  Code that in C dereferences NULL or
otherwise cannot return normally is embedded as an Option-valued function
returning none on those paths.  External collaborators (the alpm local
database, the AUR client, file reading) are parameters of an Env record,
per the external-interface section of the design document.
-/

/-! ## Character helpers -/

/-- The NUL character written by strtok and by the truncating writes. -/
def nulChar : Char := Char.ofNat 0

/-- Single-quote character (ASCII 39). -/
def sqChar : Char := Char.ofNat 39

/-- Double-quote character (ASCII 34). -/
def dqChar : Char := Char.ofNat 34

/-- Characters treated as whitespace by C isspace. -/
def wsChar (c : Char) : Bool :=
  c = ' ' ∨ c = '\t' ∨ c = '\n' ∨ c = '\r' ∨ c = Char.ofNat 11 ∨ c = Char.ofNat 12

/-- Token delimiters of parse_bash_array, per the strtok call with " \n". -/
def isDelim (c : Char) : Bool := c = ' ' ∨ c = '\n'

/-- Quote characters recognized by parse_bash_array. -/
def isQuote (c : Char) : Bool := c = sqChar ∨ c = dqChar

/-- The strcspn character set of stripped mode. -/
def stripChars : List Char := ['=', '<', '>', dqChar, sqChar]

/-- C strchr on a buffer: the suffix starting at the first occurrence of the
character, or none when absent (C: NULL). -/
def strchr : List Char → Char → Option (List Char)
  | [], _ => none
  | c :: cs, t => if c = t then some (c :: cs) else strchr cs t

theorem strchr_length_le (s : List Char) (t : Char) (r : List Char)
    (h : strchr s t = some r) : r.length ≤ s.length := by
  induction s with
  | nil => simp [strchr] at h
  | cons c cs ih =>
    simp only [strchr] at h
    by_cases hc : c = t
    · simp [hc] at h; subst h; simp
    · simp [hc] at h
      exact Nat.le_succ_of_le (ih h)

theorem strchr_pos (s : List Char) (t : Char) (r : List Char)
    (h : strchr s t = some r) : 0 < r.length := by
  induction s with
  | nil => simp [strchr] at h
  | cons c cs ih =>
    simp only [strchr] at h
    by_cases hc : c = t
    · simp [hc] at h; subst h; simp
    · simp [hc] at h; exact ih h

theorem strchr_eq_none (s : List Char) (t : Char) :
    strchr s t = none ↔ t ∉ s := by
  induction s with
  | nil => simp [strchr]
  | cons c cs ih =>
    simp only [strchr]
    by_cases hc : c = t
    · simp [hc]
    · rw [if_neg hc, ih]
      constructor
      · intro h hmem
        rcases List.mem_cons.mp hmem with he | hm
        · exact hc he.symm
        · exact h hm
      · intro h hm
        exact h (List.mem_cons_of_mem _ hm)

theorem strchr_head (s : List Char) (t : Char) (r : List Char)
    (h : strchr s t = some r) : ∃ u, r = t :: u := by
  induction s with
  | nil => simp [strchr] at h
  | cons c cs ih =>
    simp only [strchr] at h
    by_cases hc : c = t
    · subst hc
      simp [strchr] at h
      exact ⟨cs, h.symm⟩
    · simp [hc] at h; exact ih h

/-- The first occurrence found by strchr dominates every suffix that starts
with the sought character. -/
theorem strchr_suffix_dominates (s : List Char) (t : Char) (v : List Char)
    (h : (t :: v) <:+ s) : ∃ r, strchr s t = some r ∧ (t :: v) <:+ r := by
  induction s with
  | nil => exact absurd (List.eq_nil_of_suffix_nil h) (by simp)
  | cons c cs ih =>
    by_cases hc : c = t
    · exact ⟨c :: cs, by simp [strchr, hc], h⟩
    · rcases List.suffix_cons_iff.mp h with heq | htl
      · exact absurd (List.head_eq_of_cons_eq heq).symm hc
      · rcases ih htl with ⟨r, hr, hsuf⟩
        exact ⟨r, by simp [strchr, hc, hr], hsuf⟩

/-- When a suffix t :: v of s avoids a character c, the text after the first
occurrence of c still has t :: v as a suffix. -/
theorem strchr_tail_keeps_suffix (s : List Char) (c t : Char) (v r : List Char)
    (h : strchr s c = some r) (hsuf : (t :: v) <:+ s) (hne : c ∉ (t :: v)) :
    (t :: v) <:+ r.tail := by
  induction s with
  | nil => exact absurd (List.eq_nil_of_suffix_nil hsuf) (by simp)
  | cons a as ih =>
    simp only [strchr] at h
    by_cases hac : a = c
    · simp [hac] at h
      rcases List.suffix_cons_iff.mp hsuf with heq | htl
      · exfalso
        apply hne
        have : t = a := List.head_eq_of_cons_eq heq
        rw [this, hac]
        exact List.mem_cons_self _ _
      · rw [← h]
        simpa using htl
    · simp [hac] at h
      rcases List.suffix_cons_iff.mp hsuf with heq | htl
      · exfalso
        have hmem : c ∈ (t :: v) := by
          rw [heq]
          have : c ∈ as := by
            by_contra hcn
            rw [(strchr_eq_none as c).mpr hcn] at h
            exact Option.noConfusion h
          exact List.mem_cons_of_mem _ this
        exact hne hmem
      · exact ih h htl

/-! ## Spec-modelled utility helpers

strtrim and line_starts_with live in util.c, which is not part of the two
embedded source files; they are modelled from the design document. -/

/-- Modelled from the spec: util.c's strtrim is not available; the spec says
lines are trimmed of whitespace before keyword matching.  Only the leading
trim can influence keyword matching or the extracted tokens (the trailing trim
only removes whitespace at the very end of the scanned text, which no
extraction step reads), so strtrim is modelled as dropping leading
whitespace. -/
def strtrim (s : List Char) : List Char := s.dropWhile wsChar

/-- Modelled from the spec: util.c's line_starts_with is not available; per the
spec a line matches a keyword exactly when the trimmed line starts with it.
The C function returns 0 on a match; the model returns true. -/
def line_starts_with (line kw : List Char) : Bool := kw.isPrefixOf line

/-- Modelled from the spec: the PKGBUILD_DEPENDS keyword of depends.h, which
is not available; the spec names the recognized keyword patterns. -/
def kwDepends : List Char := "depends=".toList

/-- Modelled from the spec: the PKGBUILD_MAKEDEPENDS keyword of depends.h. -/
def kwMakedepends : List Char := "makedepends=".toList

/-- Modelled from the spec: the PKGBUILD_OPTDEPENDS keyword of depends.h. -/
def kwOptdepends : List Char := "optdepends=".toList

/-! ## parse_bash_array (depends.c lines 33-59) -/

/-- The token sequence produced by the strtok(deparray, " \n") loop:
maximal runs of non-delimiter characters, in order. -/
def strtokAll : List Char → List (List Char)
  | [] => []
  | c :: cs =>
    if isDelim c then strtokAll cs
    else
      (c :: cs).takeWhile (fun x => !(isDelim x)) ::
        strtokAll ((c :: cs).drop ((c :: cs).takeWhile (fun x => !(isDelim x))).length)
termination_by l => l.length
decreasing_by
  · simp
  · have h1 : ((c :: cs).takeWhile (fun x => !(isDelim x))).length ≤ (c :: cs).length :=
      (List.takeWhile_sublist _).length_le
    have h2 : 0 < ((c :: cs).takeWhile (fun x => !(isDelim x))).length := by
      rename_i hdel
      rw [List.takeWhile_cons_of_pos (by simp [hdel])]
      simp
    simp only [List.length_drop]
    simp only [List.length_cons] at *
    omega

/-- The per-token normalization of parse_bash_array: skip one leading quote;
in stripped mode truncate at the first strcspn character, in raw mode drop a
single trailing quote. -/
def normTok (stripdeps : Bool) (t : List Char) : List Char :=
  let t1 := match t with
    | [] => []
    | c :: cs => if isQuote c then cs else c :: cs
  if stripdeps then t1.takeWhile (fun c => !(stripChars.contains c))
  else match t1.getLast? with
    | none => t1
    | some c => if isQuote c then t1.dropLast else t1

/-- depends.c lines 33-59: tokenize deparray with strtok on space/newline,
normalize each token, and append it to deplist unless an equal string is
already present (alpm_list_find_str / alpm_list_add). -/
def parse_bash_array (deplist : List String) (deparray : List Char)
    (stripdeps : Bool) : List String :=
  (strtokAll deparray).foldl
    (fun acc t =>
      let s := String.mk (normTok stripdeps t)
      if acc.contains s then acc else acc ++ [s])
    deplist

/-! ## In-place mutation performed by parse_bash_array

parse_bash_array runs strtok over the deparray region and writes NUL bytes
into it: strtok replaces the delimiter terminating each token, stripped mode
overwrites the first strcspn character of a token, raw mode overwrites a
trailing quote (and, for a token that is a lone quote, the quote itself, which
is the byte just before the empty token).  The following functions compute the
final contents of the deparray region. -/

/-- Final contents of the bytes of one original token after the normalization
writes of parse_bash_array. -/
def mutTokCore (stripdeps : Bool) (t : List Char) : List Char :=
  if stripdeps then
    match t.findIdx? (fun c => stripChars.contains c) with
    | none => t
    | some p => t.set p nulChar
  else
    match t.getLast? with
    | none => t
    | some c => if isQuote c then t.dropLast ++ [nulChar] else t

/-- Final contents of one original token (including a possible leading quote,
which the C code skips without writing, except in the raw lone-quote case
where the write lands on the quote itself). -/
def mutTok (stripdeps : Bool) (t : List Char) : List Char :=
  match t with
  | [] => []
  | c :: cs =>
    if isQuote c then
      if stripdeps = false ∧ cs = [] then [nulChar]
      else c :: mutTokCore stripdeps cs
    else mutTokCore stripdeps (c :: cs)

/-- Final contents of the whole deparray region after parse_bash_array:
delimiters before the first token and between tokens beyond the first written
NUL are untouched, each token's terminating delimiter becomes NUL, and each
token body receives its normalization writes. -/
def parse_bash_array_buf (deparray : List Char) (stripdeps : Bool) : List Char :=
  match deparray with
  | [] => []
  | c :: cs =>
    if isDelim c then c :: parse_bash_array_buf cs stripdeps
    else
      if (c :: cs).drop ((c :: cs).takeWhile (fun x => !(isDelim x))).length = [] then
        mutTok stripdeps ((c :: cs).takeWhile (fun x => !(isDelim x)))
      else
        mutTok stripdeps ((c :: cs).takeWhile (fun x => !(isDelim x))) ++
          nulChar ::
            parse_bash_array_buf
              ((c :: cs).drop (((c :: cs).takeWhile (fun x => !(isDelim x))).length + 1))
              stripdeps
termination_by deparray.length
decreasing_by
  · simp
  · simp only [List.length_drop, List.length_cons]
    omega

/-! ## pkgbuild_get_deps (depends.c lines 61-87) -/

/-- One trip of the while loop of pkgbuild_get_deps.  bptr is the current
scan position; the loop finds the next newline, trims the following line,
skips it unless it starts with depends= or makedepends=, and otherwise takes
the text up to the first closing parenthesis (found by strchr anywhere in the
rest of the buffer) and parses the bash array after the first opening
parenthesis in stripped mode.  A matched line with no closing parenthesis in
the rest of the buffer makes the C code write through the NULL returned by
strchr, and a matched segment with no opening parenthesis before the close
makes it call strtok on NULL + 1; both are embedded as none. -/
def pkgbuild_get_deps_go (bptr : List Char) (deplist : List String) :
    Option (List String) :=
  match h : strchr bptr '\n' with
  | none => some deplist
  | some s =>
    let lineptr := strtrim s.tail
    if line_starts_with lineptr kwDepends ∨ line_starts_with lineptr kwMakedepends then
      match h2 : strchr lineptr ')' with
      | none => none
      | some cls =>
        match strchr (lineptr.takeWhile (fun c => c ≠ ')')) '(' with
        | none => none
        | some opn => pkgbuild_get_deps_go cls.tail (parse_bash_array deplist opn.tail true)
    else
      match h3 : strchr lineptr '\n' with
      | none => some deplist
      | some s2 => pkgbuild_get_deps_go s2 deplist
termination_by bptr.length
decreasing_by
  · have a1 := strchr_length_le bptr '\n' s h
    have a2 := strchr_pos bptr '\n' s h
    have a3 : lineptr.length ≤ s.tail.length := (List.dropWhile_sublist _).length_le
    have a4 := strchr_length_le lineptr ')' cls h2
    have a5 := strchr_pos lineptr ')' cls h2
    simp only [List.length_tail] at *
    omega
  · have a1 := strchr_length_le bptr '\n' s h
    have a2 := strchr_pos bptr '\n' s h
    have a3 : lineptr.length ≤ s.tail.length := (List.dropWhile_sublist _).length_le
    have a4 := strchr_length_le lineptr '\n' s2 h3
    simp only [List.length_tail] at *
    omega

/-- depends.c lines 61-87: scan the PKGBUILD buffer and collect the stripped
depends/makedepends tokens. -/
def pkgbuild_get_deps (pkgbuild : List Char) : Option (List String) :=
  pkgbuild_get_deps_go pkgbuild []

/-! ## populate_pkg_deps (depends.c lines 89-118) -/

/-- The three dependency-array fields of struct aur_pkg_t that
populate_pkg_deps fills (the remaining metadata fields play no part here). -/
structure AurPkgT where
  depends : List String
  makedepends : List String
  optdepends : List String
deriving DecidableEq

/-- One trip of the while loop of populate_pkg_deps: like pkgbuild_get_deps
but dispatching depends=, makedepends= and optdepends= lines into the three
fields of the package record, parsing in raw mode. -/
def populate_pkg_deps_go (pkg : AurPkgT) (bptr : List Char) : Option AurPkgT :=
  match h : strchr bptr '\n' with
  | none => some pkg
  | some s =>
    let lineptr := strtrim s.tail
    if line_starts_with lineptr kwDepends then
      match h2 : strchr lineptr ')' with
      | none => none
      | some cls =>
        match strchr (lineptr.takeWhile (fun c => c ≠ ')')) '(' with
        | none => none
        | some opn =>
          populate_pkg_deps_go
            ⟨parse_bash_array pkg.depends opn.tail false, pkg.makedepends, pkg.optdepends⟩
            cls.tail
    else if line_starts_with lineptr kwMakedepends then
      match h2 : strchr lineptr ')' with
      | none => none
      | some cls =>
        match strchr (lineptr.takeWhile (fun c => c ≠ ')')) '(' with
        | none => none
        | some opn =>
          populate_pkg_deps_go
            ⟨pkg.depends, parse_bash_array pkg.makedepends opn.tail false, pkg.optdepends⟩
            cls.tail
    else if line_starts_with lineptr kwOptdepends then
      match h2 : strchr lineptr ')' with
      | none => none
      | some cls =>
        match strchr (lineptr.takeWhile (fun c => c ≠ ')')) '(' with
        | none => none
        | some opn =>
          populate_pkg_deps_go
            ⟨pkg.depends, pkg.makedepends, parse_bash_array pkg.optdepends opn.tail false⟩
            cls.tail
    else
      match h3 : strchr lineptr '\n' with
      | none => some pkg
      | some s2 => populate_pkg_deps_go pkg s2
termination_by bptr.length
decreasing_by
  · have a1 := strchr_length_le bptr '\n' s h
    have a2 := strchr_pos bptr '\n' s h
    have a3 : lineptr.length ≤ s.tail.length := (List.dropWhile_sublist _).length_le
    have a4 := strchr_length_le lineptr ')' cls h2
    have a5 := strchr_pos lineptr ')' cls h2
    simp only [List.length_tail] at *
    omega
  · have a1 := strchr_length_le bptr '\n' s h
    have a2 := strchr_pos bptr '\n' s h
    have a3 : lineptr.length ≤ s.tail.length := (List.dropWhile_sublist _).length_le
    have a4 := strchr_length_le lineptr ')' cls h2
    have a5 := strchr_pos lineptr ')' cls h2
    simp only [List.length_tail] at *
    omega
  · have a1 := strchr_length_le bptr '\n' s h
    have a2 := strchr_pos bptr '\n' s h
    have a3 : lineptr.length ≤ s.tail.length := (List.dropWhile_sublist _).length_le
    have a4 := strchr_length_le lineptr ')' cls h2
    have a5 := strchr_pos lineptr ')' cls h2
    simp only [List.length_tail] at *
    omega
  · have a1 := strchr_length_le bptr '\n' s h
    have a2 := strchr_pos bptr '\n' s h
    have a3 : lineptr.length ≤ s.tail.length := (List.dropWhile_sublist _).length_le
    have a4 := strchr_length_le lineptr '\n' s2 h3
    simp only [List.length_tail] at *
    omega

/-- depends.c lines 89-118: fill the three dependency arrays of an AUR package
record from its PKGBUILD text, preserving constraint text (raw mode). -/
def populate_pkg_deps (pkg : AurPkgT) (pkgbuild : List Char) : Option AurPkgT :=
  populate_pkg_deps_go pkg pkgbuild

/-! ## alpm_list_mmerge_dedupe (pacman.c lines 58-118)

The doubly-linked alpm_list_t is embedded as a Lean list (the final tail
pointer fix-up of lines 112-115 does not alter the element sequence).
alpm_list_remove_item on the head of a list is the tail of the list, with one
invocation of the disposal callback; the number of disposal-callback
invocations is carried alongside the result. -/

/-- The initial do-while loop (lines 68-79): pick the first output node.
While the heads compare equal the left head is removed (one disposal call)
and the comparison is retried; the C condition re-dereferences left->data
without checking that the removal left the list non-empty, so exhausting the
left list inside this loop is a NULL dereference, embedded as none.  The
result carries the chosen head, the remaining left and right lists and the
number of disposal calls. -/
def mmerge_first {α : Type} (cmp : α → α → Int) :
    List α → List α → Nat → Option (α × List α × List α × Nat)
  | [], _, _ => none
  | _ :: _, [], _ => none
  | a :: l, b :: r, f =>
    if cmp a b > 0 then some (b, a :: l, r, f)
    else if cmp a b < 0 then some (a, l, b :: r, f)
    else mmerge_first cmp l (b :: r) (f + 1)

/-- The main merge loop (lines 85-110): ordinary sorted merge, except that
equal heads drop the left element with a disposal call and retry. -/
def mmerge_main {α : Type} (cmp : α → α → Int) :
    List α → List α → Nat → List α × Nat
  | [], r, f => (r, f)
  | l, [], f => (l, f)
  | a :: l, b :: r, f =>
    if cmp a b < 0 then
      (a :: (mmerge_main cmp l (b :: r) f).1, (mmerge_main cmp l (b :: r) f).2)
    else if cmp a b > 0 then
      (b :: (mmerge_main cmp (a :: l) r f).1, (mmerge_main cmp (a :: l) r f).2)
    else mmerge_main cmp l (b :: r) (f + 1)
termination_by l r => l.length + r.length

/-- pacman.c lines 58-118: merge two lists, dropping cross-list duplicates
through the disposal callback.  Returns the merged sequence and the number of
disposal-callback invocations, or none when the C code crashes. -/
def alpm_list_mmerge_dedupe {α : Type} (cmp : α → α → Int)
    (left right : List α) : Option (List α × Nat) :=
  match left, right with
  | [], r => some (r, 0)
  | l, [] => some (l, 0)
  | _ :: _, _ :: _ =>
    match mmerge_first cmp left right 0 with
    | none => none
    | some (hd, l, r, f) =>
      some (hd :: (mmerge_main cmp l r f).1, (mmerge_main cmp l r f).2)

/-- The integer comparison callback used in the theorems: the canonical
strcmp-style total-order comparison on Int. -/
def ordCmp (a b : Int) : Int := if a < b then -1 else if b < a then 1 else 0

/-! ## Classifier and resolution driver (pacman.c lines 260-312, depends.c
lines 120-192) -/

/-- A sync database: its name and its package cache (package names). -/
structure SyncDB where
  name : String
  pkgs : List String
deriving DecidableEq

/-- pacman.c lines 260-281: return the first sync database whose package
cache contains the target name. -/
def alpm_sync_search (syncs : List SyncDB) (target : String) : Option SyncDB :=
  syncs.find? (fun db => db.pkgs.contains target)

/-- pacman.c lines 290-312: true when some sync database contains the
target. -/
def is_in_pacman (syncs : List SyncDB) (target : String) : Bool :=
  (alpm_sync_search syncs target).isSome

/-- An AUR metadata record returned by aur_rpc_query (only the name matters
to the driver). -/
structure AurPkg where
  name : String
deriving DecidableEq

/-- The external collaborators consumed by the driver: the local installed
database, the configured sync databases, the AUR query endpoint (an empty
result list covers both no-result and failed queries), the tarball fetch
outcome, and recipe-file reading (none = file missing or unreadable). -/
structure Env where
  localDb : String → Bool
  syncs : List SyncDB
  aurQuery : String → List AurPkg
  fetchOk : AurPkg → Bool
  readFile : String → Option (List Char)

/-- The four classification outcomes of a dependency name. -/
inductive DepClass where
  | installed
  | availableInRepository
  | availableInAUR
  | unresolved
deriving DecidableEq

/-- Instrumented classification of one dependency name, mirroring the loop
body of get_pkg_dependencies (depends.c lines 160-182): the outcome together
with the number of is_in_pacman calls and of aur_rpc_query calls executed. -/
structure ClassifyTrace where
  outcome : DepClass
  pacmanLookups : Nat
  aurQueries : Nat
deriving DecidableEq

/-- depends.c lines 160-182: the classifier.  alpm_db_get_pkg on the local
database is checked first; only on a miss is is_in_pacman consulted, and only
on a further miss is the AUR queried. -/
def classify_dep (env : Env) (d : String) : ClassifyTrace :=
  if env.localDb d then ⟨DepClass.installed, 0, 0⟩
  else if is_in_pacman env.syncs d then ⟨DepClass.availableInRepository, 1, 0⟩
  else
    match env.aurQuery d with
    | [] => ⟨DepClass.unresolved, 1, 1⟩
    | _ :: _ => ⟨DepClass.availableInAUR, 1, 1⟩

/-- The observable result of one resolution pass: ret is the int the C
function returns; the other fields are instrumentation counters (number of
dependencies examined by the loop, of aur_get_tarball calls, and of
aur_get_tarball calls whose fetch succeeded). -/
structure DriverTrace where
  ret : Nat
  classified : Nat
  fetchCalls : Nat
  fetchSuccesses : Nat
deriving DecidableEq

/-- The per-dependency loop of get_pkg_dependencies (depends.c lines
154-184): installed and repository-available names are skipped; an AUR query
with results increments ret and triggers one tarball fetch whose return value
the C code ignores; names found nowhere are silently ignored. -/
def dep_loop (env : Env) : List String → DriverTrace
  | [] => ⟨0, 0, 0, 0⟩
  | d :: ds =>
    let t := dep_loop env ds
    if env.localDb d then ⟨t.ret, t.classified + 1, t.fetchCalls, t.fetchSuccesses⟩
    else if is_in_pacman env.syncs d then
      ⟨t.ret, t.classified + 1, t.fetchCalls, t.fetchSuccesses⟩
    else
      match env.aurQuery d with
      | [] => ⟨t.ret, t.classified + 1, t.fetchCalls, t.fetchSuccesses⟩
      | p :: _ =>
        ⟨t.ret + 1, t.classified + 1, t.fetchCalls + 1,
          t.fetchSuccesses + (if env.fetchOk p then 1 else 0)⟩

/-- depends.c lines 120-192: the resolution driver.  A missing or unreadable
PKGBUILD prints an error and returns 1 before any parsing or classification;
otherwise the PKGBUILD is parsed and every extracted dependency is classified
in order.  The value none embeds the crash paths of pkgbuild_get_deps. -/
def get_pkg_dependencies (env : Env) (pkg : String) : Option DriverTrace :=
  match env.readFile pkg with
  | none => some ⟨1, 0, 0, 0⟩
  | some buffer =>
    match pkgbuild_get_deps buffer with
    | none => none
    | some deplist => some (dep_loop env deplist)

/-! ## Concrete fixtures used in the theorems -/

/-- The empty AUR package record. -/
def aurPkg0 : AurPkgT := ⟨[], [], []⟩

/-- A recipe whose second line is depends=('a' 'b>=1.0' 'a'). -/
def c6Buf : List Char :=
  "#\ndepends=(".toList ++ [sqChar, 'a', sqChar, ' ', sqChar] ++
    "b>=1.0".toList ++ [sqChar, ' ', sqChar, 'a', sqChar] ++ ")\n".toList

/-- A recipe whose second line is optdepends=('a: description text'). -/
def c7BufDesc : List Char :=
  "#\noptdepends=(".toList ++ [sqChar] ++ "a: description text".toList ++
    [sqChar] ++ ")\n".toList

/-- A recipe whose second line is optdepends=('a>=1.0'). -/
def c7BufConstraint : List Char :=
  "#\noptdepends=(".toList ++ [sqChar] ++ "a>=1.0".toList ++ [sqChar] ++ ")\n".toList

/-- A recipe whose only array declaration sits on the very first line. -/
def firstLineBuf : List Char := "depends=(a b)\n".toList

/-- A recipe declaring the single dependency z. -/
def recipeZ : List Char := "#\ndepends=(z)\n".toList

/-- The package name used by the driver fixtures. -/
def pkgStr : String := "pkg"

/-- The dependency name used by the driver fixtures. -/
def zStr : String := "z"

/-- Driver environment: nothing installed, no sync databases, z available in
the AUR, every tarball fetch fails, recipe readable. -/
def envFetchFail : Env :=
  ⟨fun _ => false, [], fun d => if d = zStr then [⟨zStr⟩] else [],
   fun _ => false, fun p => if p = pkgStr then some recipeZ else none⟩

/-- Driver environment: like envFetchFail but every tarball fetch succeeds. -/
def envFetchOne : Env :=
  ⟨fun _ => false, [], fun d => if d = zStr then [⟨zStr⟩] else [],
   fun _ => true, fun p => if p = pkgStr then some recipeZ else none⟩

/-- Driver environment whose recipe file is missing. -/
def envMissing : Env :=
  ⟨fun _ => false, [], fun _ => [], fun _ => true, fun _ => none⟩

/-- Name of the sync database of envBoth. -/
def coreStr : String := "core"

/-- Classifier environment: everything installed locally and z also present
in a sync database. -/
def envBoth : Env :=
  ⟨fun _ => true, [⟨coreStr, [zStr]⟩], fun _ => [], fun _ => true, fun _ => none⟩

/-! ## Lemmas about the merge combiner -/

theorem ordCmp_neg_iff (a b : Int) : ordCmp a b < 0 ↔ a < b := by
  unfold ordCmp
  split_ifs with h1 h2 <;> omega

theorem ordCmp_pos_iff (a b : Int) : ordCmp a b > 0 ↔ b < a := by
  unfold ordCmp
  split_ifs with h1 h2 <;> omega

theorem mmerge_main_spec (l r : List Int) (f : Nat)
    (hl : l.Sorted (· < ·)) (hr : r.Sorted (· < ·)) :
    (∀ x, x ∈ (mmerge_main ordCmp l r f).1 ↔ x ∈ l ∨ x ∈ r) ∧
    (mmerge_main ordCmp l r f).1.Sorted (· < ·) ∧
    (mmerge_main ordCmp l r f).2 + (mmerge_main ordCmp l r f).1.length
      = f + l.length + r.length := by
  induction l, r, f using mmerge_main.induct ordCmp with
  | case1 r f =>
    simp [mmerge_main, hr]
  | case2 l f =>
    simp only [mmerge_main]
    constructor
    · intro x; simp
    · constructor
      · exact hl
      · simp
  | case3 a l b r f hc ih =>
    have hab : a < b := (ordCmp_neg_iff a b).mp hc
    have hl2 : l.Sorted (· < ·) := (List.sorted_cons.mp hl).2
    obtain ⟨ihm, ihs, ihc⟩ := ih hl2 hr
    simp only [mmerge_main, if_pos hc]
    refine ⟨?_, ?_, ?_⟩
    · intro x
      simp only [List.mem_cons, ihm]
      tauto
    · rw [List.sorted_cons]
      refine ⟨?_, ihs⟩
      intro y hy
      rcases (ihm y).mp hy with hyl | hyr
      · exact (List.sorted_cons.mp hl).1 y hyl
      · rcases List.mem_cons.mp hyr with he | hm
        · omega
        · have := (List.sorted_cons.mp hr).1 y hm
          omega
    · simp only [List.length_cons] at *
      omega
  | case4 a l b r f hc hc2 ih =>
    have hba : b < a := (ordCmp_pos_iff a b).mp hc2
    have hr2 : r.Sorted (· < ·) := (List.sorted_cons.mp hr).2
    obtain ⟨ihm, ihs, ihc⟩ := ih hl hr2
    simp only [mmerge_main, if_neg hc, if_pos hc2]
    refine ⟨?_, ?_, ?_⟩
    · intro x
      simp only [List.mem_cons, ihm]
      tauto
    · rw [List.sorted_cons]
      refine ⟨?_, ihs⟩
      intro y hy
      rcases (ihm y).mp hy with hyl | hyr
      · rcases List.mem_cons.mp hyl with he | hm
        · omega
        · have := (List.sorted_cons.mp hl).1 y hm
          omega
      · exact (List.sorted_cons.mp hr).1 y hyr
    · simp only [List.length_cons] at *
      omega
  | case5 a l b r f hc hc2 ih =>
    have hab : a = b := by
      have h1 := (ordCmp_neg_iff a b).not.mp hc
      have h2 := (ordCmp_pos_iff a b).not.mp hc2
      omega
    have hl2 : l.Sorted (· < ·) := (List.sorted_cons.mp hl).2
    obtain ⟨ihm, ihs, ihc⟩ := ih hl2 hr
    simp only [mmerge_main, if_neg hc, if_neg hc2]
    refine ⟨?_, ihs, ?_⟩
    · intro x
      rw [ihm]
      subst hab
      simp only [List.mem_cons]
      tauto
    · simp only [List.length_cons] at *
      omega

theorem mmerge_first_spec (l : List Int) :
    ∀ (r : List Int) (f : Nat) (hd : Int) (l2 r2 : List Int) (f2 : Nat),
      l.Sorted (· < ·) → r.Sorted (· < ·) →
      mmerge_first ordCmp l r f = some (hd, l2, r2, f2) →
      ((∀ x, x ∈ l ∨ x ∈ r ↔ (x = hd ∨ x ∈ l2 ∨ x ∈ r2)) ∧
       (∀ x ∈ l2, hd < x) ∧ (∀ x ∈ r2, hd < x) ∧
       l2.Sorted (· < ·) ∧ r2.Sorted (· < ·) ∧
       f2 + (1 + l2.length + r2.length) = f + l.length + r.length) := by
  induction l with
  | nil =>
    intro r f hd l2 r2 f2 hl hr h
    simp [mmerge_first] at h
  | cons a l ih =>
    intro r f hd l2 r2 f2 hl hr h
    cases r with
    | nil => simp [mmerge_first] at h
    | cons b r =>
      simp only [mmerge_first] at h
      by_cases hc : ordCmp a b > 0
      · rw [if_pos hc] at h
        have hba : b < a := (ordCmp_pos_iff a b).mp hc
        obtain ⟨rfl, rfl, rfl, rfl⟩ : b = hd ∧ a :: l = l2 ∧ r = r2 ∧ f = f2 := by
          simpa using h
        refine ⟨?_, ?_, ?_, hl, (List.sorted_cons.mp hr).2, ?_⟩
        · intro x
          simp only [List.mem_cons]
          tauto
        · intro x hx
          rcases List.mem_cons.mp hx with he | hm
          · omega
          · have := (List.sorted_cons.mp hl).1 x hm
            omega
        · intro x hx
          exact (List.sorted_cons.mp hr).1 x hx
        · simp only [List.length_cons]
          omega
      · rw [if_neg hc] at h
        by_cases hc2 : ordCmp a b < 0
        · rw [if_pos hc2] at h
          have hab : a < b := (ordCmp_neg_iff a b).mp hc2
          obtain ⟨rfl, rfl, rfl, rfl⟩ : a = hd ∧ l = l2 ∧ b :: r = r2 ∧ f = f2 := by
            simpa using h
          refine ⟨?_, ?_, ?_, (List.sorted_cons.mp hl).2, hr, ?_⟩
          · intro x
            simp only [List.mem_cons]
            tauto
          · intro x hx
            exact (List.sorted_cons.mp hl).1 x hx
          · intro x hx
            rcases List.mem_cons.mp hx with he | hm
            · omega
            · have := (List.sorted_cons.mp hr).1 x hm
              omega
          · simp only [List.length_cons]
            omega
        · rw [if_neg hc2] at h
          have hab : a = b := by
            have h1 := (ordCmp_neg_iff a b).not.mp hc2
            have h2 := (ordCmp_pos_iff a b).not.mp hc
            omega
          obtain ⟨ihm, ihbl, ihbr, ihsl, ihsr, ihc⟩ :=
            ih (b :: r) (f + 1) hd l2 r2 f2 ((List.sorted_cons.mp hl).2) hr h
          refine ⟨?_, ihbl, ihbr, ihsl, ihsr, ?_⟩
          · intro x
            rw [← ihm x]
            subst hab
            simp only [List.mem_cons]
            tauto
          · simp only [List.length_cons] at *
            omega

/-! ## Lemmas about the classifier and driver -/

theorem dep_loop_counts (env : Env) (ds : List String) :
    (dep_loop env ds).ret =
      ds.countP (fun d => (classify_dep env d).outcome == DepClass.availableInAUR) ∧
    (dep_loop env ds).classified = ds.length ∧
    (dep_loop env ds).fetchCalls = (dep_loop env ds).ret := by
  induction ds with
  | nil => simp [dep_loop]
  | cons d ds ih =>
    obtain ⟨ih1, ih2, ih3⟩ := ih
    simp only [dep_loop, List.countP_cons, List.length_cons]
    by_cases hl : env.localDb d = true
    · simp [classify_dep, hl, ih1, ih2, ih3]
    · by_cases hp : is_in_pacman env.syncs d = true
      · simp [classify_dep, hl, hp, ih1, ih2, ih3]
      · cases hq : env.aurQuery d with
        | nil => simp [classify_dep, hl, hp, hq, ih1, ih2, ih3]
        | cons p ps => simp [classify_dep, hl, hp, hq, ih1, ih2, ih3]

/-! ## Lemmas about the tokenizer and its dedupe -/

theorem parse_bash_array_nodup (deplist : List String) (deparray : List Char)
    (stripdeps : Bool) (h : deplist.Nodup) :
    (parse_bash_array deplist deparray stripdeps).Nodup := by
  unfold parse_bash_array
  generalize strtokAll deparray = toks
  induction toks generalizing deplist with
  | nil => simpa using h
  | cons t ts ih =>
    simp only [List.foldl_cons]
    apply ih
    by_cases hc : deplist.contains (String.mk (normTok stripdeps t)) = true
    · rw [if_pos hc]
      exact h
    · have hc2 : String.mk (normTok stripdeps t) ∉ deplist := by
        simpa using hc
      rw [if_neg hc]
      rw [List.nodup_append]
      refine ⟨h, by simp, ?_⟩
      intro x hx hx2
      simp only [List.mem_singleton] at hx2
      subst hx2
      exact hc2 hx

/-! ## Length preservation of the in-place mutation -/

theorem mutTokCore_length (stripdeps : Bool) (t : List Char) :
    (mutTokCore stripdeps t).length = t.length := by
  unfold mutTokCore
  by_cases hs : stripdeps = true
  · rw [if_pos hs]
    cases hf : t.findIdx? (fun c => stripChars.contains c) with
    | none => rfl
    | some p => simp
  · rw [if_neg hs]
    cases hg : t.getLast? with
    | none => rfl
    | some c =>
      by_cases hq : isQuote c = true
      · have ht : t ≠ [] := by
          intro he
          subst he
          simp at hg
        have hp := List.length_pos.mpr ht
        simp [hq, List.length_dropLast]
        omega
      · simp [hq]

theorem mutTok_length (stripdeps : Bool) (t : List Char) :
    (mutTok stripdeps t).length = t.length := by
  cases t with
  | nil => rfl
  | cons c cs =>
    simp only [mutTok]
    by_cases hq : isQuote c = true
    · rw [if_pos hq]
      by_cases hz : stripdeps = false ∧ cs = []
      · rw [if_pos hz]
        obtain ⟨_, rfl⟩ := hz
        rfl
      · rw [if_neg hz]
        simp [mutTokCore_length]
    · rw [if_neg hq]
      simp [mutTokCore_length]

theorem parse_bash_array_buf_length (deparray : List Char) (stripdeps : Bool) :
    (parse_bash_array_buf deparray stripdeps).length = deparray.length := by
  induction deparray, stripdeps using parse_bash_array_buf.induct with
  | case1 stripdeps => simp [parse_bash_array_buf]
  | case2 stripdeps c cs hdel ih =>
    simp only [parse_bash_array_buf, if_pos hdel, List.length_cons, ih]
  | case3 stripdeps c cs hdel heq =>
    rw [parse_bash_array_buf, if_neg hdel, if_pos heq, mutTok_length]
    have hlen := congrArg List.length heq
    have h1 : ((c :: cs).takeWhile (fun x => !(isDelim x))).length ≤ (c :: cs).length :=
      (List.takeWhile_sublist _).length_le
    simp only [List.length_drop, List.length_nil, List.length_cons] at hlen h1 ⊢
    omega
  | case4 stripdeps c cs hdel heq ih =>
    rw [parse_bash_array_buf, if_neg hdel, if_neg heq]
    simp only [List.length_append, List.length_cons, mutTok_length, ih]
    have h1 : ((c :: cs).takeWhile (fun x => !(isDelim x))).length ≤ (c :: cs).length :=
      (List.takeWhile_sublist _).length_le
    have h2 : (c :: cs).drop ((c :: cs).takeWhile (fun x => !(isDelim x))).length ≠ [] := heq
    have h3 : ((c :: cs).drop ((c :: cs).takeWhile (fun x => !(isDelim x))).length).length ≠ 0 :=
      fun he => h2 (List.eq_nil_of_length_eq_zero he)
    simp only [List.length_drop, List.length_cons] at h1 h3 ⊢
    omega

/-! ## Unterminated arrays crash the scanner -/

theorem strtrim_suffix_cases (v l : List Char) (h : ('\n' :: v) <:+ l) :
    ('\n' :: v) <:+ strtrim l ∨ strtrim l = strtrim v := by
  induction l with
  | nil => exact absurd (List.eq_nil_of_suffix_nil h) (by simp)
  | cons a l ih =>
    rcases List.suffix_cons_iff.mp h with heq | htl
    · right
      rw [← heq]
      show strtrim ('\n' :: v) = strtrim v
      unfold strtrim
      rw [List.dropWhile_cons_of_pos (by decide)]
    · by_cases hws : wsChar a = true
      · have he : strtrim (a :: l) = strtrim l := by
          unfold strtrim
          rw [List.dropWhile_cons_of_pos hws]
        rw [he]
        exact ih htl
      · left
        have he : strtrim (a :: l) = a :: l := by
          unfold strtrim
          rw [List.dropWhile_cons_of_neg (by simpa using hws)]
        rw [he]
        exact htl.trans (List.suffix_cons a l)

theorem pkgbuild_go_unterminated (v : List Char)
    (hkw : line_starts_with (strtrim v) kwDepends = true ∨
           line_starts_with (strtrim v) kwMakedepends = true)
    (hnp : ')' ∉ v) :
    ∀ (n : Nat) (bptr : List Char) (acc : List String),
      bptr.length ≤ n → ('\n' :: v) <:+ bptr →
      pkgbuild_get_deps_go bptr acc = none := by
  intro n
  induction n with
  | zero =>
    intro bptr acc hlen hsuf
    have hb : bptr = [] := List.eq_nil_of_length_eq_zero (Nat.le_zero.mp hlen)
    subst hb
    exact absurd (List.eq_nil_of_suffix_nil hsuf) (by simp)
  | succ n ih =>
    intro bptr acc hlen hsuf
    obtain ⟨s, hs, hssuf⟩ := strchr_suffix_dominates bptr '\n' v hsuf
    obtain ⟨stail, rfl⟩ := strchr_head bptr '\n' s hs
    have hslen : stail.length + 1 ≤ bptr.length :=
      strchr_length_le bptr '\n' _ hs
    rw [pkgbuild_get_deps_go.eq_def]
    split
    · rename_i heq
      rw [hs] at heq
      exact Option.noConfusion heq
    · rename_i s2 heq
      rw [hs] at heq
      obtain rfl : ('\n' :: stail) = s2 := Option.some.inj heq
      simp only [List.tail_cons]
      rcases List.suffix_cons_iff.mp hssuf with heq2 | htl
      · obtain rfl : v = stail := by injection heq2
        rw [if_pos (by exact hkw)]
        have hnone : strchr (strtrim v) ')' = none :=
          (strchr_eq_none _ _).mpr (fun hmem => hnp ((List.dropWhile_sublist _).subset hmem))
        split
        · rfl
        · rename_i cls heq3
          rw [hnone] at heq3
          exact Option.noConfusion heq3
      · rcases strtrim_suffix_cases v stail htl with hsuf2 | heqtrim
        · by_cases hmatch : line_starts_with (strtrim stail) kwDepends = true ∨
              line_starts_with (strtrim stail) kwMakedepends = true
          · rw [if_pos hmatch]
            split
            · rfl
            · rename_i cls heq3
              split
              · rfl
              · rename_i opn heq4
                apply ih
                · have a1 : cls.length ≤ (strtrim stail).length :=
                    strchr_length_le _ ')' cls heq3
                  have a2 : (strtrim stail).length ≤ stail.length :=
                    (List.dropWhile_sublist _).length_le
                  have a3 : 0 < cls.length := strchr_pos _ ')' cls heq3
                  simp only [List.length_tail]
                  omega
                · refine strchr_tail_keeps_suffix (strtrim stail) ')' '\n' v cls heq3 hsuf2 ?_
                  intro hmem
                  rcases List.mem_cons.mp hmem with h1 | h2
                  · exact absurd h1 (by decide)
                  · exact hnp h2
          · rw [if_neg hmatch]
            obtain ⟨s3, hs3, hs3suf⟩ := strchr_suffix_dominates (strtrim stail) '\n' v hsuf2
            split
            · rename_i heq3
              rw [hs3] at heq3
              exact Option.noConfusion heq3
            · rename_i s4 heq3
              rw [hs3] at heq3
              obtain rfl : s3 = s4 := Option.some.inj heq3
              apply ih
              · have a1 : s3.length ≤ (strtrim stail).length :=
                  strchr_length_le _ '\n' s3 hs3
                have a2 : (strtrim stail).length ≤ stail.length :=
                  (List.dropWhile_sublist _).length_le
                omega
              · exact hs3suf
        · rw [heqtrim]
          rw [if_pos (by exact hkw)]
          have hnone : strchr (strtrim v) ')' = none :=
            (strchr_eq_none _ _).mpr (fun hmem => hnp ((List.dropWhile_sublist _).subset hmem))
          split
          · rfl
          · rename_i cls heq3
            rw [hnone] at heq3
            exact Option.noConfusion heq3

/-! ## The scanners only look at text after a newline -/

theorem strchr_append_not_mem (pre rest : List Char) (t : Char) (h : t ∉ pre) :
    strchr (pre ++ rest) t = strchr rest t := by
  induction pre with
  | nil => rfl
  | cons a p ih =>
    simp only [List.cons_append, strchr]
    rw [if_neg (fun he => h (by rw [he]; exact List.mem_cons_self _ _))]
    exact ih (fun hm => h (List.mem_cons_of_mem _ hm))

theorem pkgbuild_go_congr (b1 b2 : List Char) (acc : List String)
    (h : strchr b1 '\n' = strchr b2 '\n') :
    pkgbuild_get_deps_go b1 acc = pkgbuild_get_deps_go b2 acc := by
  conv_lhs => rw [pkgbuild_get_deps_go.eq_def]
  conv_rhs => rw [pkgbuild_get_deps_go.eq_def]
  split
  · rename_i heq1
    rw [heq1] at h
    split
    · rfl
    · rename_i s heq2
      rw [heq2] at h
      exact Option.noConfusion h
  · rename_i s heq1
    rw [heq1] at h
    split
    · rename_i heq2
      rw [heq2] at h
      exact Option.noConfusion h
    · rename_i s2 heq2
      rw [heq2] at h
      obtain rfl : s = s2 := Option.some.inj h
      rfl

theorem populate_go_congr (pkg : AurPkgT) (b1 b2 : List Char)
    (h : strchr b1 '\n' = strchr b2 '\n') :
    populate_pkg_deps_go pkg b1 = populate_pkg_deps_go pkg b2 := by
  conv_lhs => rw [populate_pkg_deps_go.eq_def]
  conv_rhs => rw [populate_pkg_deps_go.eq_def]
  split
  · rename_i heq1
    rw [heq1] at h
    split
    · rfl
    · rename_i s heq2
      rw [heq2] at h
      exact Option.noConfusion h
  · rename_i s heq1
    rw [heq1] at h
    split
    · rename_i heq2
      rw [heq2] at h
      exact Option.noConfusion h
    · rename_i s2 heq2
      rw [heq2] at h
      obtain rfl : s = s2 := Option.some.inj h
      rfl

theorem pkgbuild_go_no_newline (bptr : List Char) (acc : List String)
    (h : '\n' ∉ bptr) : pkgbuild_get_deps_go bptr acc = some acc := by
  rw [pkgbuild_get_deps_go.eq_def]
  split
  · rfl
  · rename_i s heq
    rw [(strchr_eq_none bptr '\n').mpr h] at heq
    exact Option.noConfusion heq

theorem populate_go_no_newline (pkg : AurPkgT) (bptr : List Char)
    (h : '\n' ∉ bptr) : populate_pkg_deps_go pkg bptr = some pkg := by
  rw [populate_pkg_deps_go.eq_def]
  split
  · rfl
  · rename_i s heq
    rw [(strchr_eq_none bptr '\n').mpr h] at heq
    exact Option.noConfusion heq

/-! ## Claim C1: the merge-dedupe contract -/

/-- C1 counterexample: for the sorted inputs [1, 1] and [2] the combiner
returns [1, 1, 2], in which the element 1 appears twice, so equal elements
are not collapsed to one retained element and not every element appears
exactly once in the output. -/
theorem c1_counterexample :
    List.Sorted (· ≤ ·) [(1 : Int), 1] ∧ List.Sorted (· ≤ ·) [(2 : Int)] ∧
    alpm_list_mmerge_dedupe ordCmp [(1 : Int), 1] [2] = some ([1, 1, 2], 0) ∧
    ¬ ([(1 : Int), 1, 2].count 1 = 1) := by
  refine ⟨by decide, by decide, ?_, by decide⟩
  simp [alpm_list_mmerge_dedupe, mmerge_first, mmerge_main, ordCmp]

/-- C1 (amended): for inputs that are each strictly sorted (hence
duplicate-free within themselves) under the comparison, whenever the combiner
returns at all (it crashes when collapsing equal heads exhausts the left
input), the output is strictly sorted, an element is in the output exactly
when it is in one of the inputs, every such element appears exactly once, and
the disposal callback runs exactly once per discarded element (disposal count
plus output length equals the total input length). -/
theorem c1_merge_dedupe (l r out : List Int) (f : Nat)
    (hl : l.Sorted (· < ·)) (hr : r.Sorted (· < ·))
    (h : alpm_list_mmerge_dedupe ordCmp l r = some (out, f)) :
    out.Sorted (· < ·) ∧ (∀ x, x ∈ out ↔ x ∈ l ∨ x ∈ r) ∧
    (∀ x, x ∈ l ∨ x ∈ r → out.count x = 1) ∧
    f + out.length = l.length + r.length := by
  match l, h with
  | [], h =>
    simp only [alpm_list_mmerge_dedupe] at h
    obtain ⟨rfl, rfl⟩ : r = out ∧ 0 = f := by simpa using h
    refine ⟨hr, by simp, ?_, by simp⟩
    intro x hx
    simp only [List.not_mem_nil, false_or] at hx
    exact List.count_eq_one_of_mem hr.nodup hx
  | a :: l1, h =>
    match r, h with
    | [], h =>
      simp only [alpm_list_mmerge_dedupe] at h
      obtain ⟨rfl, rfl⟩ : a :: l1 = out ∧ 0 = f := by simpa using h
      refine ⟨hl, by simp, ?_, by simp⟩
      intro x hx
      simp only [List.not_mem_nil, or_false] at hx
      exact List.count_eq_one_of_mem hl.nodup hx
    | b :: r1, h =>
      simp only [alpm_list_mmerge_dedupe] at h
      cases hf : mmerge_first ordCmp (a :: l1) (b :: r1) 0 with
      | none =>
        rw [hf] at h
        exact Option.noConfusion h
      | some q =>
        obtain ⟨hd, l2, r2, f2⟩ := q
        rw [hf] at h
        obtain ⟨rfl, rfl⟩ :
            hd :: (mmerge_main ordCmp l2 r2 f2).1 = out ∧
            (mmerge_main ordCmp l2 r2 f2).2 = f := by simpa using h
        obtain ⟨fm, fbl, fbr, fsl, fsr, fc⟩ :=
          mmerge_first_spec (a :: l1) (b :: r1) 0 hd l2 r2 f2 hl hr hf
        obtain ⟨mm, ms, mc⟩ := mmerge_main_spec l2 r2 f2 fsl fsr
        have hsorted : (hd :: (mmerge_main ordCmp l2 r2 f2).1).Sorted (· < ·) := by
          rw [List.sorted_cons]
          refine ⟨?_, ms⟩
          intro y hy
          rcases (mm y).mp hy with hyl | hyr
          · exact fbl y hyl
          · exact fbr y hyr
        have hmem : ∀ x, x ∈ hd :: (mmerge_main ordCmp l2 r2 f2).1 ↔
            x ∈ a :: l1 ∨ x ∈ b :: r1 := by
          intro x
          rw [List.mem_cons, mm x, ← fm x]
        refine ⟨hsorted, hmem, ?_, ?_⟩
        · intro x hx
          exact List.count_eq_one_of_mem hsorted.nodup ((hmem x).mpr hx)
        · simp only [List.length_cons] at *
          omega

/-- C1 witness: the amended theorem applied to the inputs [5] and [7]. -/
theorem c1_witness :
    ([5, 7] : List Int).Sorted (· < ·) ∧
    (∀ x : Int, x ∈ ([5, 7] : List Int) ↔ x ∈ ([5] : List Int) ∨ x ∈ ([7] : List Int)) ∧
    (∀ x : Int, x ∈ ([5] : List Int) ∨ x ∈ ([7] : List Int) →
      ([5, 7] : List Int).count x = 1) ∧
    0 + ([5, 7] : List Int).length = ([5] : List Int).length + ([7] : List Int).length :=
  c1_merge_dedupe [5] [7] [5, 7] 0 (by decide) (by decide)
    (by simp [alpm_list_mmerge_dedupe, mmerge_first, mmerge_main, ordCmp])

/-! ## Claim C8: the duplicate-elimination loop and list exhaustion -/

/-- C8: evaluating the combiner at the failing input: both inputs sorted and
beginning with equal elements, and collapsing the duplicate exhausts the left
list; the do-while loop then re-reads the head of the exhausted left list and
the C code dereferences NULL, embedded as the none result, instead of
terminating normally. -/
theorem c8_crash_eval : alpm_list_mmerge_dedupe ordCmp [(1 : Int)] [1] = none := by
  simp [alpm_list_mmerge_dedupe, mmerge_first, ordCmp]

/-! ## Claim C2: classification priority order -/

/-- C2: classification follows the fixed priority order installed >
repository > AUR > unresolved with the first match winning: a locally
installed name is classified installed with zero is_in_pacman calls and zero
AUR queries (in particular a name also present in a repository is never
classified availableInRepository); a repository hit short-circuits the AUR
query; the AUR is only consulted after both misses. -/
theorem c2_classify_priority (env : Env) (d : String) :
    (env.localDb d = true → classify_dep env d = ⟨DepClass.installed, 0, 0⟩) ∧
    (env.localDb d = false → is_in_pacman env.syncs d = true →
      classify_dep env d = ⟨DepClass.availableInRepository, 1, 0⟩) ∧
    (env.localDb d = false → is_in_pacman env.syncs d = false →
      env.aurQuery d ≠ [] →
      classify_dep env d = ⟨DepClass.availableInAUR, 1, 1⟩) ∧
    (env.localDb d = false → is_in_pacman env.syncs d = false →
      env.aurQuery d = [] →
      classify_dep env d = ⟨DepClass.unresolved, 1, 1⟩) := by
  refine ⟨?_, ?_, ?_, ?_⟩
  · intro h1
    simp [classify_dep, h1]
  · intro h1 h2
    simp [classify_dep, h1, h2]
  · intro h1 h2 h3
    cases hq : env.aurQuery d with
    | nil => exact absurd hq h3
    | cons p ps => simp [classify_dep, h1, h2, hq]
  · intro h1 h2 h3
    simp [classify_dep, h1, h2, h3]

/-- C2 witness: in envBoth the name z is both locally installed and present
in the core sync database, and is classified installed with zero repository
and AUR lookups. -/
theorem c2_witness :
    classify_dep envBoth zStr = ⟨DepClass.installed, 0, 0⟩ ∧
    is_in_pacman envBoth.syncs zStr = true :=
  ⟨(c2_classify_priority envBoth zStr).1 rfl, by decide⟩

/-! ## Claim C3: the fetched count -/

/-- C3 counterexample: in envFetchFail the single dependency z is
AUR-available, its AUR query succeeds, and its tarball fetch fails; the
driver still returns ret = 1 although zero tarball retrievals succeeded, so
the returned count is not the number of dependencies whose tarball retrieval
actually succeeded. -/
theorem c3_counterexample :
    get_pkg_dependencies envFetchFail pkgStr = some ⟨1, 1, 1, 0⟩ ∧
    (1 : Nat) ≠ 0 := by
  refine ⟨?_, by decide⟩
  simp [get_pkg_dependencies, envFetchFail, pkgStr, recipeZ, zStr,
    pkgbuild_get_deps, pkgbuild_get_deps_go, strchr, strtrim, wsChar,
    line_starts_with, kwDepends, kwMakedepends, parse_bash_array, strtokAll,
    normTok, isDelim, isQuote, stripChars, sqChar, dqChar, dep_loop,
    is_in_pacman, alpm_sync_search, classify_dep]

/-- C3 (amended): when the recipe is readable and parses, the driver returns
the trace of the classification loop; the returned count equals the number of
dependencies classified as AUR-available, i.e. those whose AUR query returned
at least one result, independently of whether their tarball fetch succeeded
(the fetch result is never checked); an AUR query with no results does not
count; the loop never aborts (every extracted dependency is classified) and
exactly one tarball fetch is attempted per counted dependency. -/
theorem c3_fetched_count (env : Env) (pkg : String) (buffer : List Char)
    (deplist : List String)
    (hread : env.readFile pkg = some buffer)
    (hparse : pkgbuild_get_deps buffer = some deplist) :
    get_pkg_dependencies env pkg = some (dep_loop env deplist) ∧
    (dep_loop env deplist).ret =
      deplist.countP
        (fun d => (classify_dep env d).outcome == DepClass.availableInAUR) ∧
    (dep_loop env deplist).classified = deplist.length ∧
    (dep_loop env deplist).fetchCalls = (dep_loop env deplist).ret := by
  obtain ⟨h1, h2, h3⟩ := dep_loop_counts env deplist
  refine ⟨?_, h1, h2, h3⟩
  simp [get_pkg_dependencies, hread, hparse]

/-- C3 witness: the amended theorem applied to envFetchFail. -/
theorem c3_witness :
    get_pkg_dependencies envFetchFail pkgStr = some (dep_loop envFetchFail [zStr]) :=
  (c3_fetched_count envFetchFail pkgStr recipeZ [zStr] (by rfl)
    (by simp [recipeZ, zStr, pkgbuild_get_deps, pkgbuild_get_deps_go, strchr,
      strtrim, wsChar, line_starts_with, kwDepends, kwMakedepends,
      parse_bash_array, strtokAll, normTok, isDelim, isQuote, stripChars,
      sqChar, dqChar])).1

/-! ## Claim C4: missing recipe file -/

/-- C4 counterexample: the driver returns the int 1 both for a missing
recipe (envMissing) and for a successful pass that fetched exactly one
AUR dependency (envFetchOne), so the error is not distinguishable from a
successful fetched-count result. -/
theorem c4_counterexample :
    get_pkg_dependencies envMissing pkgStr = some ⟨1, 0, 0, 0⟩ ∧
    get_pkg_dependencies envFetchOne pkgStr = some ⟨1, 1, 1, 1⟩ ∧
    (⟨1, 0, 0, 0⟩ : DriverTrace).ret = (⟨1, 1, 1, 1⟩ : DriverTrace).ret := by
  refine ⟨?_, ?_, rfl⟩
  · simp [get_pkg_dependencies, envMissing]
  · simp [get_pkg_dependencies, envFetchOne, pkgStr, recipeZ, zStr,
      pkgbuild_get_deps, pkgbuild_get_deps_go, strchr, strtrim, wsChar,
      line_starts_with, kwDepends, kwMakedepends, parse_bash_array, strtokAll,
      normTok, isDelim, isQuote, stripChars, sqChar, dqChar, dep_loop,
      is_in_pacman, alpm_sync_search, classify_dep]

/-- C4 (amended): for every environment whose recipe file cannot be located
or read, the driver returns 1 (printing an error) with zero classification
calls, zero tarball fetches and no dependency parsing; this return value
coincides with the return value of a successful pass that fetched exactly one
dependency, so it is not distinguishable by the returned int alone. -/
theorem c4_missing_recipe (env : Env) (pkg : String)
    (h : env.readFile pkg = none) :
    get_pkg_dependencies env pkg = some ⟨1, 0, 0, 0⟩ := by
  simp [get_pkg_dependencies, h]

/-- C4 witness: the amended theorem applied to envMissing. -/
theorem c4_witness : get_pkg_dependencies envMissing pkgStr = some ⟨1, 0, 0, 0⟩ :=
  c4_missing_recipe envMissing pkgStr rfl

/-! ## Claim C5: unterminated array declarations -/

/-- C5 counterexample: a recipe whose unterminated depends=( declaration
forms the very first line is silently skipped (the scanner only examines text
after a newline), so extraction returns the empty set instead of raising any
failure; the same holds without the line terminator. -/
theorem c5_counterexample :
    pkgbuild_get_deps ("depends=(a b\n".toList) = some [] ∧
    pkgbuild_get_deps ("depends=(a b".toList) = some [] ∧
    some ([] : List String) ≠ none := by
  refine ⟨?_, pkgbuild_go_no_newline _ [] (by decide), by simp⟩
  simp [pkgbuild_get_deps, pkgbuild_get_deps_go, strchr, strtrim, wsChar,
    line_starts_with, kwDepends, kwMakedepends]

/-- C5 (amended): for every recipe text containing, on a line that follows a
newline character, an array declaration that is matched (after trimming it
starts with depends= or makedepends=) and that is never closed by a
parenthesis anywhere in the rest of the text, extraction hard-fails (the C
code dereferences the NULL result of strchr, embedded as none): it never
silently continues with corrupted array bounds and returns no tokens at
all. -/
theorem c5_unterminated_array (buf v : List Char)
    (hsuf : ('\n' :: v) <:+ buf)
    (hkw : line_starts_with (strtrim v) kwDepends = true ∨
           line_starts_with (strtrim v) kwMakedepends = true)
    (hnp : ')' ∉ v) :
    pkgbuild_get_deps buf = none :=
  pkgbuild_go_unterminated v hkw hnp buf.length buf [] le_rfl hsuf

/-- C5 witness: the amended theorem applied to a recipe whose second line is
the unterminated declaration depends=(a b. -/
theorem c5_witness : pkgbuild_get_deps ("x\ndepends=(a b".toList) = none :=
  c5_unterminated_array ("x\ndepends=(a b".toList) ("depends=(a b".toList)
    (by decide) (Or.inl (by decide)) (by decide)

/-! ## Claim C6: stripped-mode extraction -/

/-- C6: stripped-mode extraction skips insertion of a token whose
post-normalization string is already in the set (the set always stays free of
duplicates), and on a recipe with depends=('a' 'b>=1.0' 'a') it yields
exactly the ordered set a, b: the leading quote is dropped, tokens are
truncated at the first of the characters equal, less-than, greater-than,
double quote, single quote, and the repeated a is not inserted twice. -/
theorem c6_stripped_extraction :
    (∀ (deplist : List String) (deparray : List Char), deplist.Nodup →
      (parse_bash_array deplist deparray true).Nodup) ∧
    pkgbuild_get_deps c6Buf = some [r"a", r"b"] := by
  refine ⟨fun dl da h => parse_bash_array_nodup dl da true h, ?_⟩
  simp [c6Buf, pkgbuild_get_deps, pkgbuild_get_deps_go, strchr, strtrim,
    wsChar, line_starts_with, kwDepends, kwMakedepends, parse_bash_array,
    strtokAll, normTok, isDelim, isQuote, stripChars, sqChar, dqChar]

/-- C6 witness: the dedupe clause of the theorem applied to a concrete
already-deduplicated set. -/
theorem c6_witness : (parse_bash_array [r"q"] ("a b".toList) true).Nodup :=
  c6_stripped_extraction.1 [r"q"] ("a b".toList) (by decide)

/-! ## Claim C7: raw-mode extraction -/

/-- C7 counterexample: raw-mode extraction of optdepends=('a: description
text') does not preserve the element as one token: strtok splits it at the
spaces, so the extracted optdepends list is a:, description, text and the
full token a: description text appears nowhere. -/
theorem c7_counterexample :
    populate_pkg_deps aurPkg0 c7BufDesc =
      some ⟨[], [], [r"a:", r"description", r"text"]⟩ ∧
    r"a: description text" ∉ [r"a:", r"description", r"text"] := by
  refine ⟨?_, by decide⟩
  simp [c7BufDesc, aurPkg0, populate_pkg_deps, populate_pkg_deps_go, strchr,
    strtrim, wsChar, line_starts_with, kwDepends, kwMakedepends, kwOptdepends,
    parse_bash_array, strtokAll, normTok, isDelim, isQuote, stripChars,
    sqChar, dqChar]

/-- C7 (amended): raw-mode extraction removes a single leading quote and a
single trailing quote from each whitespace-delimited token and preserves the
rest of the token (version constraints and the like) in full; but array
elements are tokenized on whitespace, so an element containing spaces such as
'a: description text' is split into the tokens a:, description, text instead
of being preserved as one element. -/
theorem c7_raw_mode :
    populate_pkg_deps aurPkg0 c7BufDesc =
      some ⟨[], [], [r"a:", r"description", r"text"]⟩ ∧
    populate_pkg_deps aurPkg0 c7BufConstraint = some ⟨[], [], [r"a>=1.0"]⟩ := by
  constructor
  · simp [c7BufDesc, aurPkg0, populate_pkg_deps, populate_pkg_deps_go, strchr,
      strtrim, wsChar, line_starts_with, kwDepends, kwMakedepends,
      kwOptdepends, parse_bash_array, strtokAll, normTok, isDelim, isQuote,
      stripChars, sqChar, dqChar]
  · simp [c7BufConstraint, aurPkg0, populate_pkg_deps, populate_pkg_deps_go,
      strchr, strtrim, wsChar, line_starts_with, kwDepends, kwMakedepends,
      kwOptdepends, parse_bash_array, strtokAll, normTok, isDelim, isQuote,
      stripChars, sqChar, dqChar]

/-! ## Claim C9: the parser and the recipe buffer -/

/-- C9 counterexample: parsing the array region a b in stripped mode returns
the tokens a and b but leaves the region reading a, NUL, b: strtok overwrote
the delimiter, so the buffer is not unchanged after the call. -/
theorem c9_counterexample :
    parse_bash_array [] ['a', ' ', 'b'] true = [r"a", r"b"] ∧
    parse_bash_array_buf ['a', ' ', 'b'] true = ['a', nulChar, 'b'] ∧
    ['a', nulChar, 'b'] ≠ ['a', ' ', 'b'] := by
  refine ⟨?_, ?_, by decide⟩
  · simp [parse_bash_array, strtokAll, normTok, isDelim, isQuote, stripChars,
      sqChar, dqChar]
  · simp [parse_bash_array_buf, mutTok, mutTokCore, isDelim, isQuote,
      stripChars, sqChar, dqChar, nulChar]

/-- C9 (amended): extraction mutates the array region of the recipe buffer in
place: each token's terminating delimiter and the stripped or quoted suffix
positions are overwritten with NUL bytes; the mutation stays within the
region (its length never changes) and the parser never frees or reallocates
the buffer. -/
theorem c9_in_place :
    (∀ (deparray : List Char) (stripdeps : Bool),
      (parse_bash_array_buf deparray stripdeps).length = deparray.length) ∧
    parse_bash_array_buf ['a', ' ', 'b'] true = ['a', nulChar, 'b'] := by
  refine ⟨fun da st => parse_bash_array_buf_length da st, ?_⟩
  simp [parse_bash_array_buf, mutTok, mutTokCore, isDelim, isQuote,
    stripChars, sqChar, dqChar, nulChar]

/-! ## Claim C10: only lines after a newline are examined -/

/-- C10: both extractors only examine text that follows a newline character:
a buffer with no newline yields the empty extraction, the content of the
first line (before the first newline) never influences the result, and in
particular a recipe whose only declaration is depends=(a b) on the very first
line extracts nothing. -/
theorem c10_first_line_ignored :
    (∀ buf : List Char, '\n' ∉ buf →
      pkgbuild_get_deps buf = some [] ∧
      ∀ pkg : AurPkgT, populate_pkg_deps pkg buf = some pkg) ∧
    (∀ pre buf : List Char, '\n' ∉ pre →
      pkgbuild_get_deps (pre ++ '\n' :: buf) = pkgbuild_get_deps ('\n' :: buf) ∧
      ∀ pkg : AurPkgT, populate_pkg_deps pkg (pre ++ '\n' :: buf) =
        populate_pkg_deps pkg ('\n' :: buf)) ∧
    pkgbuild_get_deps firstLineBuf = some [] := by
  refine ⟨?_, ?_, ?_⟩
  · intro buf h
    exact ⟨pkgbuild_go_no_newline buf [] h,
      fun pkg => populate_go_no_newline pkg buf h⟩
  · intro pre buf h
    have e : strchr (pre ++ '\n' :: buf) '\n' = strchr ('\n' :: buf) '\n' :=
      strchr_append_not_mem pre ('\n' :: buf) '\n' h
    exact ⟨pkgbuild_go_congr _ _ [] e, fun pkg => populate_go_congr pkg _ _ e⟩
  · simp [firstLineBuf, pkgbuild_get_deps, pkgbuild_get_deps_go, strchr,
      strtrim, wsChar, line_starts_with, kwDepends, kwMakedepends]

/-- C10 witness: the theorem applied to concrete buffers with a declaration
on the first line. -/
theorem c10_witness :
    pkgbuild_get_deps ("depends=(a b)".toList) = some [] ∧
    pkgbuild_get_deps ("q".toList ++ '\n' :: "depends=(a)\n".toList) =
      pkgbuild_get_deps ('\n' :: "depends=(a)\n".toList) :=
  ⟨(c10_first_line_ignored.1 ("depends=(a b)".toList) (by decide)).1,
   (c10_first_line_ignored.2.1 ("q".toList) ("depends=(a)\n".toList) (by decide)).1⟩
